import Mathlib

/-!
Shallow embedding of `src/ee/executors/mergereceiveexecutor.cpp` (VoltDB's
MergeReceiveExecutor): the anonymous-namespace helpers `min_tuple_range` and
`merge_sort`, and the dependency-loading loop of `MergeReceiveExecutor::p_execute`.

Rows (`TableTuple`) are abstracted to an arbitrary type `α`; a `TupleComparer`
becomes a boolean relation `comp : α → α → Bool` where `comp a b = true` means
row `a` sorts strictly before row `b`.  A `tuple_range` (pair of cursor and end
iterators into the staging vector) is the list of rows still between the cursor
and the end, so advancing the cursor is taking the tail and a range is exhausted
exactly when the list is empty.  The output `TempTable` is the list of rows
inserted so far, and `ProgressMonitorProxy::countdownProgress` invocations are
counted by a natural number.

The unguarded `while (true)` loop of `merge_sort` is embedded with explicit
fuel; `merge_sort` itself supplies `tuples.length + 1` units, and the
termination theorem shows this is always enough under the boundary-list
invariants.  Failure of either `assert` inside `min_tuple_range` (and the
undefined behaviour of dereferencing an exhausted range's cursor) is modelled
by the `assertFail` result.
-/

namespace MergeReceive

variable {α : Type}

/-- An ascending single-integer-key `TupleComparer`. -/
def intLt (a b : Int) : Bool := decide (a < b)

/-- A `TupleComparer` whose sole sort key is the first field of a pair. -/
def pairFstLt (a b : Int × Int) : Bool := decide (a.1 < b.1)

/-- Result of running `merge_sort`: the rows inserted into the output table and
the number of `countdownProgress` calls, or a marker that an `assert` in
`min_tuple_range` would have failed, or that the modelling fuel ran out. -/
inductive MergeRes (α : Type) where
  | ok (out : List α) (countdowns : Nat)
  | assertFail
  | fuelOut
deriving DecidableEq, Repr

/-- The scan loop of `min_tuple_range` (lines 78-86): walk the remaining
ranges, keeping the index of the best (smallest-head) range seen so far.
`best` is the head row of the current best range, `bestIdx` its index, and `i`
the index of the next range to examine.  A scanned range with no rows left
violates the source's `assert(rangeIt->first != rangeIt->second)`. -/
def minRangeAux (comp : α → α → Bool) : List (List α) → α → Nat → Nat → Option Nat
  | [], _, bestIdx, _ => some bestIdx
  | [] :: _, _, _, _ => none
  | (h :: _) :: rs, best, bestIdx, i =>
    if comp h best then minRangeAux comp rs h i (i + 1)
    else minRangeAux comp rs best bestIdx (i + 1)

/-- `min_tuple_range` (lines 74-88): index of the range whose head row is the
smallest; on ties the earliest range is kept because the comparison against the
running best is strict.  `none` models a failed `assert(!partitions.empty())`
or a dereference of an exhausted range's cursor. -/
def min_tuple_range (comp : α → α → Bool) : List (List α) → Option Nat
  | [] => none
  | [] :: _ => none
  | (h :: _) :: rs => minRangeAux comp rs h 0 1

/-- The single-remaining-partition drain loop of `merge_sort` (lines 131-139):
`while (cursor != end && (limit == -1 || tupleCnt < limit))` take the row,
advance, skip it while `tupleSkipped++ < offset`, otherwise insert it and count
one unit of progress.  Returns the inserted rows and the number of
`countdownProgress` calls.  `tupleCnt` is never modified by the source, so it
is threaded through unchanged. -/
def drain (limit offset tupleCnt : Int) : List α → Int → List α × Nat
  | [], _ => ([], 0)
  | t :: ts, tupleSkipped =>
    if limit = -1 ∨ tupleCnt < limit then
      if tupleSkipped < offset then
        drain limit offset tupleCnt ts (tupleSkipped + 1)
      else
        let r := drain limit offset tupleCnt ts (tupleSkipped + 1)
        (t :: r.1, r.2 + 1)
    else ([], 0)

/-- Take the head row of the range at index `k` and advance that range's cursor
(lines 146 and 150): returns the row and the updated partition list, `none` on
an out-of-bounds index or an exhausted range (an invalid dereference in the
source). -/
def advanceAt : List (List α) → Nat → Option (α × List (List α))
  | [], _ => none
  | [] :: _, 0 => none
  | (t :: rest) :: rs, 0 => some (t, rest :: rs)
  | r :: rs, n + 1 =>
    match advanceAt rs n with
    | none => none
    | some (t, rs') => some (t, r :: rs')

/-- The `while (true)` loop of `merge_sort` (lines 117-151), with fuel.  Each
iteration erases exhausted ranges (lines 120-127), then either drains the
single remaining range and returns (lines 128-141), or selects the range with
the smallest head via `min_tuple_range`, unconditionally inserts its head row,
counts one unit of progress and advances its cursor (lines 143-150).
`out` is the output table contents and `pc` the progress count so far. -/
def mergeLoop [Inhabited α] (comp : α → α → Bool) (limit offset : Int) :
    Nat → List (List α) → Int → Int → List α → Nat → MergeRes α
  | 0, _, _, _, _, _ => .fuelOut
  | fuel + 1, parts, tupleCnt, tupleSkipped, out, pc =>
    let ps := parts.filter (fun r => !r.isEmpty)
    if ps.length = 1 then
      let d := drain limit offset tupleCnt ps.headI tupleSkipped
      .ok (out ++ d.1) (pc + d.2)
    else
      match min_tuple_range comp ps with
      | none => .assertFail
      | some k =>
        match advanceAt ps k with
        | none => .assertFail
        | some (t, ps') =>
          mergeLoop comp limit offset fuel ps' tupleCnt tupleSkipped (out ++ [t]) (pc + 1)

/-- Lines 106-113: carve the staging vector into one contiguous range per
boundary-list entry, in recorded order. -/
def buildRanges : List α → List Nat → List (List α)
  | _, [] => []
  | ts, c :: cs => ts.take c :: buildRanges (ts.drop c) cs

/-- `merge_sort` (lines 90-152): an empty boundary list returns immediately
with nothing inserted; otherwise the ranges are built and the merge loop runs
(with `tuples.length + 1` fuel, enough for the source's unbounded loop), with
`tupleCnt = 0` and `tupleSkipped = 0`. -/
def merge_sort [Inhabited α] (comp : α → α → Bool) (tuples : List α)
    (partitionTupleCounts : List Nat) (limit offset : Int) : MergeRes α :=
  if partitionTupleCounts.isEmpty then .ok [] 0
  else
    mergeLoop comp limit offset (tuples.length + 1)
      (buildRanges tuples partitionTupleCounts) 0 0 [] 0

/-- The dependency-loading loop of `p_execute` (lines 212-219): each batch
appends `b` rows to the temp input table, so `activeTupleCount` goes from
`prev` to `prev + b`; when the count changed, the delta is pushed onto
`partitionTupleCounts`. -/
def loadPartitionCounts : List Nat → Nat → List Nat
  | [], _ => []
  | b :: bs, prev =>
    if prev + b ≠ prev then (prev + b - prev) :: loadPartitionCounts bs (prev + b)
    else loadPartitionCounts bs (prev + b)

/-- A list is sorted for a `TupleComparer`: no element sorts strictly before
an element that precedes it. -/
def SortedB (comp : α → α → Bool) (l : List α) : Prop :=
  l.Pairwise (fun a b => comp b a = false)

instance (comp : α → α → Bool) (l : List α) : Decidable (SortedB comp l) :=
  inferInstanceAs (Decidable (l.Pairwise fun a b => comp b a = false))

/-- Specification-side general k-way selection path (spec §4.3 steps a, b, d,
e, without the single-remaining-partition fast path): drop exhausted
partitions, stop when none remain, otherwise select the minimal head with
`min_tuple_range`, emit it and advance.  Used only to compare the fast-path
drain against the general selection path on the same input. -/
def kwaySelectSpec (comp : α → α → Bool) : Nat → List (List α) → List α
  | 0, _ => []
  | fuel + 1, parts =>
    let ps := parts.filter (fun r => !r.isEmpty)
    if ps.isEmpty then []
    else
      match min_tuple_range comp ps with
      | none => []
      | some k =>
        match advanceAt ps k with
        | none => []
        | some (t, ps') => t :: kwaySelectSpec comp fuel ps'

/-! ### Basic facts about the drain loop -/

/-- When the limit condition holds and the offset has already been consumed,
the drain copies the whole remaining range and counts each copied row. -/
lemma drain_all (limit offset tupleCnt : Int) (hl : limit = -1 ∨ tupleCnt < limit) :
    ∀ (l : List α) (sk : Int), offset ≤ sk →
    drain limit offset tupleCnt l sk = (l, l.length) := by
  intro l
  induction l with
  | nil => intro sk _; rfl
  | cons t ts ih =>
    intro sk hsk
    have h1 : ¬ sk < offset := not_lt.mpr hsk
    simp [drain, hl, h1, ih (sk + 1) (by omega)]

/-- The drain counts one unit of progress per row it inserts. -/
lemma drain_snd (limit offset tupleCnt : Int) :
    ∀ (l : List α) (sk : Int),
    (drain limit offset tupleCnt l sk).2 = (drain limit offset tupleCnt l sk).1.length := by
  intro l
  induction l with
  | nil => intro sk; rfl
  | cons t ts ih =>
    intro sk
    simp only [drain]
    split
    · split
      · exact ih (sk + 1)
      · simp [ih (sk + 1)]
    · rfl

/-- With `tupleCnt` stuck at `0`, any positive limit passes the drain's test on
every iteration, exactly as the unbounded limit `-1` does. -/
lemma drain_limit_pos (limit offset : Int) (hl : 1 ≤ limit) :
    ∀ (l : List α) (sk : Int),
    drain limit offset 0 l sk = drain (-1) offset 0 l sk := by
  intro l
  induction l with
  | nil => intro sk; rfl
  | cons t ts ih =>
    intro sk
    have h1 : (limit = -1 ∨ (0:Int) < limit) := Or.inr (by omega)
    have h2 : ((-1:Int) = -1 ∨ (0:Int) < -1) := Or.inl rfl
    rw [drain, drain, if_pos h1, if_pos h2]
    split
    · exact ih (sk + 1)
    · simp [ih (sk + 1)]

/-- With `tupleCnt` stuck at `0`, limit `0` makes the drain insert nothing. -/
lemma drain_limit_zero (offset : Int) (l : List α) (sk : Int) :
    drain 0 offset 0 l sk = ([], 0) := by
  cases l <;> simp [drain]

/-! ### Basic facts about cursor advancement -/

/-- If the range at index `k` has head row `t`, advancing decomposes the
partition list around that range. -/
lemma advanceAt_spec :
    ∀ (ps : List (List α)) (k : Nat) (t : α) (rest : List α),
    ps.get? k = some (t :: rest) →
    ∃ pre post, ps = pre ++ (t :: rest) :: post ∧ pre.length = k ∧
      advanceAt ps k = some (t, pre ++ rest :: post) := by
  intro ps
  induction ps with
  | nil => intro k t rest h; simp at h
  | cons r rs ih =>
    intro k t rest h
    cases k with
    | zero =>
      obtain rfl : r = t :: rest := by simpa using h
      exact ⟨[], rs, rfl, rfl, rfl⟩
    | succ k =>
      obtain ⟨pre, post, hEq, hLen, hAdv⟩ := ih k t rest (by simpa using h)
      refine ⟨r :: pre, post, by simp [hEq], by simp [hLen], ?_⟩
      simp [advanceAt, hAdv]

/-! ### Existence facts about `min_tuple_range` -/

/-- The scan loop returns an index as long as every scanned range still has
rows; the index is either the carried one or within the scanned suffix. -/
lemma minRangeAux_isSome (comp : α → α → Bool) :
    ∀ (rs : List (List α)) (best : α) (bestIdx i : Nat),
    (∀ r ∈ rs, r ≠ []) → bestIdx < i →
    ∃ k, minRangeAux comp rs best bestIdx i = some k ∧ k < i + rs.length := by
  intro rs
  induction rs with
  | nil => intro best bestIdx i _ hbi; exact ⟨bestIdx, rfl, by simpa using hbi⟩
  | cons r rs ih =>
    intro best bestIdx i hne hbi
    obtain ⟨h, t, rfl⟩ := List.exists_cons_of_ne_nil (hne r (by simp))
    have hne' : ∀ r ∈ rs, r ≠ [] := fun r hr => hne r (by simp [hr])
    by_cases hc : comp h best
    · obtain ⟨k, hk, hklt⟩ := ih h i (i + 1) hne' (by omega)
      exact ⟨k, by simp [minRangeAux, hc, hk], by simp; omega⟩
    · obtain ⟨k, hk, hklt⟩ := ih best bestIdx (i + 1) hne' (by omega)
      exact ⟨k, by simp [minRangeAux, hc, hk], by simp; omega⟩

/-- `min_tuple_range` returns an in-bounds index whenever the partition list is
non-empty and no range in it is exhausted: both of its assertions hold. -/
lemma min_tuple_range_isSome (comp : α → α → Bool) (ps : List (List α))
    (hps : ps ≠ []) (hne : ∀ r ∈ ps, r ≠ []) :
    ∃ k, min_tuple_range comp ps = some k ∧ k < ps.length := by
  obtain ⟨r, rs, rfl⟩ := List.exists_cons_of_ne_nil hps
  obtain ⟨h, t, rfl⟩ := List.exists_cons_of_ne_nil (hne r (by simp))
  obtain ⟨k, hk, hklt⟩ :=
    minRangeAux_isSome comp rs h 0 1 (fun r hr => hne r (by simp [hr])) (by omega)
  exact ⟨k, by simpa [min_tuple_range] using hk, by simp; omega⟩

/-! ### Ordering facts about `min_tuple_range`

`TupleComparer` is a strict weak ordering (spec §4.1): irreflexive,
transitive, and such that anything below `b` is below everything not below
`b`.  Asymmetry and transitivity of the induced "not above" relation follow. -/

/-- Asymmetry, derived from irreflexivity and transitivity. -/
lemma comp_asymm {comp : α → α → Bool} (hirr : ∀ a, comp a a = false)
    (htr : ∀ a b c, comp a b = true → comp b c = true → comp a c = true)
    {a b : α} (h : comp a b = true) : comp b a = false := by
  by_contra hba
  have hba' : comp b a = true := by
    cases hc : comp b a with
    | false => exact absurd hc hba
    | true => rfl
  have := htr a b a h hba'
  rw [hirr a] at this
  simp at this

/-- Transitivity of "does not sort strictly before", derived from
compatibility. -/
lemma comp_le_trans {comp : α → α → Bool}
    (hcompat : ∀ a b c, comp a b = true → comp c b = false → comp a c = true)
    {a b c : α} (h1 : comp b a = false) (h2 : comp c b = false) :
    comp c a = false := by
  cases hc : comp c a with
  | false => rfl
  | true => rw [hcompat c a b hc h1] at h2; simp at h2

/-- Full characterisation of the scan loop of `min_tuple_range`: it returns
either the carried best index with the carried best row, or the absolute index
of a scanned range whose head strictly beats the carried best; in either case
the winning row is not beaten by any scanned head, and it strictly beats every
scanned head at an absolute index before the winner. -/
lemma minRangeAux_spec (comp : α → α → Bool) (hirr : ∀ a, comp a a = false)
    (htr : ∀ a b c, comp a b = true → comp b c = true → comp a c = true)
    (hcompat : ∀ a b c, comp a b = true → comp c b = false → comp a c = true) :
    ∀ (rs : List (List α)) (best : α) (bestIdx i : Nat),
    (∀ r ∈ rs, r ≠ []) → bestIdx < i →
    ∃ k m, minRangeAux comp rs best bestIdx i = some k ∧
      ((k = bestIdx ∧ m = best) ∨
        (∃ l u, rs.get? l = some (m :: u) ∧ k = i + l ∧ comp m best = true)) ∧
      (∀ l h u, rs.get? l = some (h :: u) → comp h m = false) ∧
      (∀ l h u, i + l < k → rs.get? l = some (h :: u) → comp m h = true) := by
  intro rs
  induction rs with
  | nil =>
    intro best bestIdx i _ _
    refine ⟨bestIdx, best, rfl, Or.inl ⟨rfl, rfl⟩, ?_, ?_⟩
    · intro l h u hget; simp at hget
    · intro l h u _ hget; simp at hget
  | cons r rs ih =>
    intro best bestIdx i hne hbi
    obtain ⟨h, t, rfl⟩ := List.exists_cons_of_ne_nil (hne r (by simp))
    have hne' : ∀ r ∈ rs, r ≠ [] := fun r hr => hne r (by simp [hr])
    by_cases hc : comp h best
    · obtain ⟨k, m, hk, hC2, hC4, hC5⟩ := ih h i (i + 1) hne' (by omega)
      refine ⟨k, m, by simp [minRangeAux, hc, hk], ?_, ?_, ?_⟩
      · rcases hC2 with ⟨hk0, hm⟩ | ⟨l, u, hget, hkeq, hcmp⟩
        · exact Or.inr ⟨0, t, by simp [hm], by omega, by rw [hm]; exact hc⟩
        · exact Or.inr ⟨l + 1, u, by simpa using hget, by omega, htr m h best hcmp hc⟩
      · intro l h' u hget
        cases l with
        | zero =>
          simp only [List.get?_cons_zero, Option.some.injEq, List.cons.injEq] at hget
          rw [← hget.1]
          rcases hC2 with ⟨_, hm⟩ | ⟨_, _, _, _, hcmp⟩
          · rw [hm]; exact hirr h
          · exact comp_asymm hirr htr hcmp
        | succ l' => exact hC4 l' h' u (by simpa using hget)
      · intro l h' u hlt hget
        cases l with
        | zero =>
          simp only [List.get?_cons_zero, Option.some.injEq, List.cons.injEq] at hget
          rw [← hget.1]
          rcases hC2 with ⟨hk0, _⟩ | ⟨_, _, _, _, hcmp⟩
          · omega
          · exact hcmp
        | succ l' => exact hC5 l' h' u (by omega) (by simpa using hget)
    · have hc' : comp h best = false := by
        cases hcb : comp h best with
        | false => rfl
        | true => exact absurd hcb hc
      obtain ⟨k, m, hk, hC2, hC4, hC5⟩ := ih best bestIdx (i + 1) hne' (by omega)
      refine ⟨k, m, by simp [minRangeAux, hc, hk], ?_, ?_, ?_⟩
      · rcases hC2 with hl | ⟨l, u, hget, hkeq, hcmp⟩
        · exact Or.inl hl
        · exact Or.inr ⟨l + 1, u, by simpa using hget, by omega, hcmp⟩
      · intro l h' u hget
        cases l with
        | zero =>
          simp only [List.get?_cons_zero, Option.some.injEq, List.cons.injEq] at hget
          rw [← hget.1]
          rcases hC2 with ⟨_, hm⟩ | ⟨_, _, _, _, hcmp⟩
          · rw [hm]; exact hc'
          · cases hhm : comp h m with
            | false => rfl
            | true => rw [htr h m best hhm hcmp] at hc'; simp at hc'
        | succ l' => exact hC4 l' h' u (by simpa using hget)
      · intro l h' u hlt hget
        cases l with
        | zero =>
          simp only [List.get?_cons_zero, Option.some.injEq, List.cons.injEq] at hget
          rw [← hget.1]
          rcases hC2 with ⟨hk0, _⟩ | ⟨_, _, _, _, hcmp⟩
          · omega
          · exact hcompat m best h hcmp hc'
        | succ l' => exact hC5 l' h' u (by omega) (by simpa using hget)

/-- `min_tuple_range` under a strict weak ordering: the selected range's head
is not beaten by any range's head, and strictly beats the head of every range
registered before the selected one (so on ties the earlier range wins). -/
lemma min_tuple_range_spec (comp : α → α → Bool) (hirr : ∀ a, comp a a = false)
    (htr : ∀ a b c, comp a b = true → comp b c = true → comp a c = true)
    (hcompat : ∀ a b c, comp a b = true → comp c b = false → comp a c = true)
    (ps : List (List α)) (hps : ps ≠ []) (hne : ∀ r ∈ ps, r ≠ []) :
    ∃ k m u, min_tuple_range comp ps = some k ∧ ps.get? k = some (m :: u) ∧
      (∀ l h v, ps.get? l = some (h :: v) → comp h m = false) ∧
      (∀ l h v, l < k → ps.get? l = some (h :: v) → comp m h = true) := by
  obtain ⟨r, rs, rfl⟩ := List.exists_cons_of_ne_nil hps
  obtain ⟨h0, t0, rfl⟩ := List.exists_cons_of_ne_nil (hne r (by simp))
  obtain ⟨k, m, hk, hC2, hC4, hC5⟩ :=
    minRangeAux_spec comp hirr htr hcompat rs h0 0 1
      (fun r hr => hne r (by simp [hr])) (by omega)
  have hmin : min_tuple_range comp ((h0 :: t0) :: rs) = some k := by
    simpa [min_tuple_range] using hk
  rcases hC2 with ⟨hk0, hm⟩ | ⟨l, u, hget, hkeq, hcmp⟩
  · refine ⟨k, m, t0, hmin, by simp [hk0, hm], ?_, ?_⟩
    · intro l h v hget
      cases l with
      | zero =>
        simp only [List.get?_cons_zero, Option.some.injEq, List.cons.injEq] at hget
        rw [← hget.1, hm]
        exact hirr h0
      | succ l' => exact hC4 l' h v (by simpa using hget)
    · intro l h v hlt _
      omega
  · refine ⟨k, m, u, hmin, by rw [hkeq, Nat.add_comm 1 l]; simpa using hget, ?_, ?_⟩
    · intro l' h v hget'
      cases l' with
      | zero =>
        simp only [List.get?_cons_zero, Option.some.injEq, List.cons.injEq] at hget'
        rw [← hget'.1]
        exact comp_asymm hirr htr hcmp
      | succ l'' => exact hC4 l'' h v (by simpa using hget')
    · intro l' h v hlt hget'
      cases l' with
      | zero =>
        simp only [List.get?_cons_zero, Option.some.injEq, List.cons.injEq] at hget'
        rw [← hget'.1]
        exact hcmp
      | succ l'' => exact hC5 l'' h v (by omega) (by simpa using hget')

/-! ### Facts about the exhausted-range erase pass and range building -/

/-- Erasing exhausted ranges does not change the rows still to be merged. -/
lemma flatten_filter (parts : List (List α)) :
    (parts.filter (fun r => !r.isEmpty)).flatten = parts.flatten := by
  induction parts with
  | nil => rfl
  | cons r rs ih => cases r <;> simp [List.filter_cons, ih]

/-- Every range surviving the erase pass still has rows. -/
lemma mem_filter_ne_nil {parts : List (List α)} {r : List α}
    (h : r ∈ parts.filter (fun r => !r.isEmpty)) : r ≠ [] := by
  have := (List.mem_filter.mp h).2
  simpa using this

/-- If some range still has rows, the erase pass leaves the list non-empty. -/
lemma filter_ne_nil {parts : List (List α)} {r : List α}
    (hr : r ∈ parts) (hne : r ≠ []) : parts.filter (fun r => !r.isEmpty) ≠ [] := by
  have : r ∈ parts.filter (fun r => !r.isEmpty) :=
    List.mem_filter.mpr ⟨hr, by simpa using hne⟩
  exact List.ne_nil_of_mem this

/-- The ranges carved from the staging vector concatenate back to the staged
rows that the boundary counts cover. -/
lemma flatten_buildRanges :
    ∀ (counts : List Nat) (ts : List α),
    (buildRanges ts counts).flatten = ts.take counts.sum := by
  intro counts
  induction counts with
  | nil => intro ts; simp [buildRanges]
  | cons c cs ih =>
    intro ts
    simp [buildRanges, ih (ts.drop c), List.sum_cons, List.take_add]

/-! ### Unfolding the merge loop one iteration at a time -/

/-- One unfolding of the `while (true)` loop. -/
lemma mergeLoop_succ [Inhabited α] (comp : α → α → Bool) (limit offset : Int)
    (fuel : Nat) (parts : List (List α)) (tc ts : Int) (out : List α) (pc : Nat) :
    mergeLoop comp limit offset (fuel + 1) parts tc ts out pc =
      (let ps := parts.filter (fun r => !r.isEmpty)
       if ps.length = 1 then
         MergeRes.ok (out ++ (drain limit offset tc ps.headI ts).1)
           (pc + (drain limit offset tc ps.headI ts).2)
       else
         match min_tuple_range comp ps with
         | none => MergeRes.assertFail
         | some k =>
           match advanceAt ps k with
           | none => MergeRes.assertFail
           | some (t, ps') =>
             mergeLoop comp limit offset fuel ps' tc ts (out ++ [t]) (pc + 1)) := rfl

/-- An iteration that finds a single non-exhausted range drains it. -/
lemma mergeLoop_drain [Inhabited α] (comp : α → α → Bool) (limit offset : Int)
    (fuel : Nat) (parts : List (List α)) (tc ts : Int) (out : List α) (pc : Nat)
    (hlen : (parts.filter (fun r => !r.isEmpty)).length = 1) :
    mergeLoop comp limit offset (fuel + 1) parts tc ts out pc =
      MergeRes.ok
        (out ++ (drain limit offset tc (parts.filter (fun r => !r.isEmpty)).headI ts).1)
        (pc + (drain limit offset tc (parts.filter (fun r => !r.isEmpty)).headI ts).2) := by
  rw [mergeLoop_succ]
  simp [hlen]

/-- An iteration that selects a minimal head emits it and recurses. -/
lemma mergeLoop_step [Inhabited α] (comp : α → α → Bool) (limit offset : Int)
    (fuel : Nat) (parts : List (List α)) (tc ts : Int) (out : List α) (pc : Nat)
    (k : Nat) (t : α) (ps' : List (List α))
    (hlen : (parts.filter (fun r => !r.isEmpty)).length ≠ 1)
    (hmin : min_tuple_range comp (parts.filter (fun r => !r.isEmpty)) = some k)
    (hadv : advanceAt (parts.filter (fun r => !r.isEmpty)) k = some (t, ps')) :
    mergeLoop comp limit offset (fuel + 1) parts tc ts out pc =
      mergeLoop comp limit offset fuel ps' tc ts (out ++ [t]) (pc + 1) := by
  rw [mergeLoop_succ]
  simp only [if_neg hlen, hmin, hadv]

/-- An iteration whose `min_tuple_range` call hits a failing assertion. -/
lemma mergeLoop_assert_min [Inhabited α] (comp : α → α → Bool) (limit offset : Int)
    (fuel : Nat) (parts : List (List α)) (tc ts : Int) (out : List α) (pc : Nat)
    (hlen : (parts.filter (fun r => !r.isEmpty)).length ≠ 1)
    (hmin : min_tuple_range comp (parts.filter (fun r => !r.isEmpty)) = none) :
    mergeLoop comp limit offset (fuel + 1) parts tc ts out pc = MergeRes.assertFail := by
  rw [mergeLoop_succ]
  simp only [if_neg hlen, hmin]

/-- An iteration whose cursor dereference is invalid. -/
lemma mergeLoop_assert_adv [Inhabited α] (comp : α → α → Bool) (limit offset : Int)
    (fuel : Nat) (parts : List (List α)) (tc ts : Int) (out : List α) (pc : Nat) (k : Nat)
    (hlen : (parts.filter (fun r => !r.isEmpty)).length ≠ 1)
    (hmin : min_tuple_range comp (parts.filter (fun r => !r.isEmpty)) = some k)
    (hadv : advanceAt (parts.filter (fun r => !r.isEmpty)) k = none) :
    mergeLoop comp limit offset (fuel + 1) parts tc ts out pc = MergeRes.assertFail := by
  rw [mergeLoop_succ]
  simp only [if_neg hlen, hmin, hadv]

/-! ### The merge loop runs to completion -/

/-- When a selection step removes the head of one of at least two ranges, some
other range still has rows. -/
lemma exists_ne_nil_other {ps pre post : List (List α)} {t : α} {rest : List α}
    (hEq : ps = pre ++ (t :: rest) :: post) (hne : ∀ r ∈ ps, r ≠ [])
    (hlen2 : 2 ≤ ps.length) :
    ∃ r ∈ pre ++ rest :: post, r ≠ [] := by
  have hppne : pre ++ post ≠ [] := by
    have hlen : ps.length = pre.length + post.length + 1 := by
      rw [hEq]; simp; omega
    intro hnil
    obtain ⟨h1, h2⟩ := List.append_eq_nil.mp hnil
    rw [h1, h2] at hlen
    simp at hlen
    omega
  obtain ⟨q, hq⟩ := List.exists_mem_of_ne_nil _ hppne
  rcases List.mem_append.mp hq with hq1 | hq2
  · exact ⟨q, List.mem_append_left _ hq1,
      hne q (by rw [hEq]; exact List.mem_append_left _ hq1)⟩
  · exact ⟨q, List.mem_append_right _ (List.mem_cons_of_mem _ hq2),
      hne q (by rw [hEq]; exact List.mem_append_right _ (List.mem_cons_of_mem _ hq2))⟩

/-- Advancing a cursor removes exactly one row from the rows to be merged. -/
lemma flatten_length_adv (pre post : List (List α)) (t : α) (rest : List α) :
    (pre ++ (t :: rest) :: post).flatten.length
      = (pre ++ rest :: post).flatten.length + 1 := by
  simp [List.flatten_append]
  omega

/-- With fuel exceeding the number of staged rows, the loop always returns via
the drain (it never exhausts the fuel and never fails an assertion), provided
some range is initially non-exhausted. -/
lemma mergeLoop_ok [Inhabited α] (comp : α → α → Bool) (limit offset : Int) :
    ∀ (fuel : Nat) (parts : List (List α)) (tc ts : Int) (out : List α) (pc : Nat),
    (∃ r ∈ parts, r ≠ []) → parts.flatten.length < fuel →
    ∃ o c, mergeLoop comp limit offset fuel parts tc ts out pc = MergeRes.ok o c := by
  intro fuel
  induction fuel with
  | zero => intro parts tc ts out pc _ hlt; omega
  | succ fuel ih =>
    intro parts tc ts out pc hex hlt
    obtain ⟨r0, hr0, hr0ne⟩ := hex
    have hps_ne : parts.filter (fun r => !r.isEmpty) ≠ [] := filter_ne_nil hr0 hr0ne
    have hne : ∀ r ∈ parts.filter (fun r => !r.isEmpty), r ≠ [] :=
      fun r hr => mem_filter_ne_nil hr
    by_cases hlen : (parts.filter (fun r => !r.isEmpty)).length = 1
    · exact ⟨_, _, mergeLoop_drain comp limit offset fuel parts tc ts out pc hlen⟩
    · obtain ⟨k, hmin, hklt⟩ := min_tuple_range_isSome comp _ hps_ne hne
      have hr : (parts.filter (fun r => !r.isEmpty)).get? k
          = some ((parts.filter (fun r => !r.isEmpty)).get ⟨k, hklt⟩) :=
        List.get?_eq_get hklt
      obtain ⟨t, rest, hcons⟩ := List.exists_cons_of_ne_nil (hne _ (List.get?_mem hr))
      rw [hcons] at hr
      obtain ⟨pre, post, hEq, hLen, hAdv⟩ := advanceAt_spec _ k t rest hr
      have hlen2 : 2 ≤ (parts.filter (fun r => !r.isEmpty)).length := by
        have h1 : 0 < (parts.filter (fun r => !r.isEmpty)).length :=
          List.length_pos.mpr hps_ne
        omega
      obtain ⟨q, hq, hqne⟩ := exists_ne_nil_other hEq hne hlen2
      have hflt : (pre ++ rest :: post).flatten.length < fuel := by
        have e1 : (parts.filter (fun r => !r.isEmpty)).flatten.length
            = parts.flatten.length := by rw [flatten_filter]
        have e2 := flatten_length_adv pre post t rest
        rw [hEq] at e1
        omega
      obtain ⟨o, c, hrec⟩ := ih (pre ++ rest :: post) tc ts (out ++ [t]) (pc + 1)
        ⟨q, hq, hqne⟩ hflt
      exact ⟨o, c,
        (mergeLoop_step comp limit offset fuel parts tc ts out pc k t _ hlen hmin hAdv).trans
          hrec⟩

/-- Throughout the loop, `countdownProgress` has been called exactly once per
row inserted into the output table. -/
lemma mergeLoop_count [Inhabited α] (comp : α → α → Bool) (limit offset : Int) :
    ∀ (fuel : Nat) (parts : List (List α)) (tc ts : Int) (out : List α) (pc : Nat)
      (o : List α) (c : Nat),
    pc = out.length →
    mergeLoop comp limit offset fuel parts tc ts out pc = MergeRes.ok o c →
    c = o.length := by
  intro fuel
  induction fuel with
  | zero =>
    intro parts tc ts out pc o c _ h
    exact MergeRes.noConfusion h
  | succ fuel ih =>
    intro parts tc ts out pc o c hpc h
    by_cases hlen : (parts.filter (fun r => !r.isEmpty)).length = 1
    · rw [mergeLoop_drain comp limit offset fuel parts tc ts out pc hlen] at h
      injection h with h1 h2
      rw [← h1, ← h2, hpc, drain_snd]
      simp
    · cases hmin : min_tuple_range comp (parts.filter (fun r => !r.isEmpty)) with
      | none =>
        rw [mergeLoop_assert_min comp limit offset fuel parts tc ts out pc hlen hmin] at h
        exact MergeRes.noConfusion h
      | some k =>
        cases hadv : advanceAt (parts.filter (fun r => !r.isEmpty)) k with
        | none =>
          rw [mergeLoop_assert_adv comp limit offset fuel parts tc ts out pc k hlen hmin
            hadv] at h
          exact MergeRes.noConfusion h
        | some p =>
          obtain ⟨t, ps'⟩ := p
          rw [mergeLoop_step comp limit offset fuel parts tc ts out pc k t ps' hlen hmin
            hadv] at h
          exact ih ps' tc ts (out ++ [t]) (pc + 1) o c (by simp [hpc]) h

/-- With the emitted-row counter stuck at `0`, every positive limit behaves
exactly like the unbounded limit `-1`, in every loop state. -/
lemma mergeLoop_limit_pos [Inhabited α] (comp : α → α → Bool) (limit offset : Int)
    (hl : 1 ≤ limit) :
    ∀ (fuel : Nat) (parts : List (List α)) (ts : Int) (out : List α) (pc : Nat),
    mergeLoop comp limit offset fuel parts 0 ts out pc =
      mergeLoop comp (-1) offset fuel parts 0 ts out pc := by
  intro fuel
  induction fuel with
  | zero => intro parts ts out pc; rfl
  | succ fuel ih =>
    intro parts ts out pc
    by_cases hlen : (parts.filter (fun r => !r.isEmpty)).length = 1
    · rw [mergeLoop_drain comp limit offset fuel parts 0 ts out pc hlen,
        mergeLoop_drain comp (-1) offset fuel parts 0 ts out pc hlen,
        drain_limit_pos limit offset hl]
    · cases hmin : min_tuple_range comp (parts.filter (fun r => !r.isEmpty)) with
      | none =>
        rw [mergeLoop_assert_min comp limit offset fuel parts 0 ts out pc hlen hmin,
          mergeLoop_assert_min comp (-1) offset fuel parts 0 ts out pc hlen hmin]
      | some k =>
        cases hadv : advanceAt (parts.filter (fun r => !r.isEmpty)) k with
        | none =>
          rw [mergeLoop_assert_adv comp limit offset fuel parts 0 ts out pc k hlen hmin hadv,
            mergeLoop_assert_adv comp (-1) offset fuel parts 0 ts out pc k hlen hmin hadv]
        | some p =>
          obtain ⟨t, ps'⟩ := p
          rw [mergeLoop_step comp limit offset fuel parts 0 ts out pc k t ps' hlen hmin hadv,
            mergeLoop_step comp (-1) offset fuel parts 0 ts out pc k t ps' hlen hmin hadv,
            ih ps' ts (out ++ [t]) (pc + 1)]

/-! ### Merge correctness with unbounded limit and zero offset -/

/-- Main merge invariant: with unbounded limit and zero offset, from any loop
state whose ranges are individually sorted, whose accumulated output is sorted
and not above anything still to be merged, the loop returns a sorted output
that is a permutation of the accumulated output followed by the remaining
rows, with one progress countdown per emitted row. -/
lemma mergeLoop_sorted_perm [Inhabited α] (comp : α → α → Bool)
    (hirr : ∀ a, comp a a = false)
    (htr : ∀ a b c, comp a b = true → comp b c = true → comp a c = true)
    (hcompat : ∀ a b c, comp a b = true → comp c b = false → comp a c = true) :
    ∀ (fuel : Nat) (parts : List (List α)) (tc ts : Int) (out : List α) (pc : Nat),
    (∃ r ∈ parts, r ≠ []) →
    parts.flatten.length < fuel →
    (∀ r ∈ parts, SortedB comp r) →
    SortedB comp out →
    (∀ a ∈ out, ∀ x ∈ parts.flatten, comp x a = false) →
    0 ≤ ts →
    ∃ o, mergeLoop comp (-1) 0 fuel parts tc ts out pc
        = MergeRes.ok o (pc + parts.flatten.length) ∧
      SortedB comp o ∧ List.Perm o (out ++ parts.flatten) := by
  intro fuel
  induction fuel with
  | zero => intro parts tc ts out pc _ hlt _ _ _ _; omega
  | succ fuel ih =>
    intro parts tc ts out pc hex hlt hsort hsout hinv hts
    obtain ⟨r0, hr0, hr0ne⟩ := hex
    have hps_ne : parts.filter (fun r => !r.isEmpty) ≠ [] := filter_ne_nil hr0 hr0ne
    have hne : ∀ r ∈ parts.filter (fun r => !r.isEmpty), r ≠ [] :=
      fun r hr => mem_filter_ne_nil hr
    have hflat_eq : (parts.filter (fun r => !r.isEmpty)).flatten = parts.flatten :=
      flatten_filter parts
    have hsort_ps : ∀ r ∈ parts.filter (fun r => !r.isEmpty), SortedB comp r :=
      fun r hr => hsort r (List.mem_filter.mp hr).1
    by_cases hlen : (parts.filter (fun r => !r.isEmpty)).length = 1
    · obtain ⟨r, hr_eq⟩ := List.length_eq_one.mp hlen
      have hhead : (parts.filter (fun r => !r.isEmpty)).headI = r := by rw [hr_eq]; rfl
      have hflat_r : parts.flatten = r := by rw [← hflat_eq, hr_eq]; simp
      have hdr : drain (-1) 0 tc r ts = (r, r.length) :=
        drain_all (-1) 0 tc (Or.inl rfl) r ts hts
      refine ⟨out ++ r, ?_, ?_, ?_⟩
      · rw [mergeLoop_drain comp (-1) 0 fuel parts tc ts out pc hlen, hhead, hdr, hflat_r]
      · rw [SortedB, List.pairwise_append]
        exact ⟨hsout, hsort_ps r (by rw [hr_eq]; simp),
          fun a ha b hb => hinv a ha b (by rw [hflat_r]; exact hb)⟩
      · rw [hflat_r]
    · obtain ⟨k, m, u, hmin, hget, hB, hC⟩ :=
        min_tuple_range_spec comp hirr htr hcompat _ hps_ne hne
      obtain ⟨pre, post, hEq, hLen, hAdv⟩ := advanceAt_spec _ k m u hget
      have hlen2 : 2 ≤ (parts.filter (fun r => !r.isEmpty)).length := by
        have h1 : 0 < (parts.filter (fun r => !r.isEmpty)).length :=
          List.length_pos.mpr hps_ne
        omega
      obtain ⟨q, hq, hqne⟩ := exists_ne_nil_other hEq hne hlen2
      have hsplit : parts.flatten = pre.flatten ++ (m :: (u ++ post.flatten)) := by
        rw [← hflat_eq, hEq]
        simp [List.flatten_append]
      have hsplit' : (pre ++ u :: post).flatten = pre.flatten ++ (u ++ post.flatten) := by
        simp [List.flatten_append]
      have hperm_step :
          List.Perm parts.flatten (m :: (pre ++ u :: post).flatten) := by
        rw [hsplit, hsplit']
        exact List.perm_middle
      have hm_mem : m ∈ parts.flatten := hperm_step.symm.subset (List.mem_cons_self _ _)
      have hsub : ∀ x ∈ (pre ++ u :: post).flatten, x ∈ parts.flatten :=
        fun x hx => hperm_step.symm.subset (List.mem_cons_of_mem _ hx)
      have hxm : ∀ x ∈ parts.flatten, comp x m = false := by
        intro x hx
        rw [← hflat_eq] at hx
        obtain ⟨r, hrmem, hxr⟩ := List.mem_flatten.mp hx
        obtain ⟨h, v, rfl⟩ := List.exists_cons_of_ne_nil (hne r hrmem)
        obtain ⟨n, hn⟩ := List.mem_iff_get?.mp hrmem
        have hhm : comp h m = false := hB n h v hn
        rcases List.mem_cons.mp hxr with rfl | hxv
        · exact hhm
        · have hxh : comp x h = false := by
            have hs := hsort_ps _ hrmem
            rw [SortedB, List.pairwise_cons] at hs
            exact hs.1 x hxv
          exact comp_le_trans hcompat hhm hxh
      have hlen_eq : parts.flatten.length = (pre ++ u :: post).flatten.length + 1 := by
        have := hperm_step.length_eq
        simpa using this
      have hsort' : ∀ r ∈ pre ++ u :: post, SortedB comp r := by
        intro r hr
        rcases List.mem_append.mp hr with hr1 | hr2
        · exact hsort_ps r (by rw [hEq]; exact List.mem_append_left _ hr1)
        · rcases List.mem_cons.mp hr2 with rfl | hr3
          · have hs := hsort_ps (m :: r)
              (by rw [hEq]; exact List.mem_append_right _ (List.mem_cons_self _ _))
            rw [SortedB, List.pairwise_cons] at hs
            exact hs.2
          · exact hsort_ps r
              (by rw [hEq]; exact List.mem_append_right _ (List.mem_cons_of_mem _ hr3))
      have hsout' : SortedB comp (out ++ [m]) := by
        rw [SortedB, List.pairwise_append]
        refine ⟨hsout, List.pairwise_singleton _ _, ?_⟩
        intro a ha b hb
        rw [List.mem_singleton] at hb
        rw [hb]
        exact hinv a ha m hm_mem
      have hinv' : ∀ a ∈ out ++ [m], ∀ x ∈ (pre ++ u :: post).flatten,
          comp x a = false := by
        intro a ha x hx
        rcases List.mem_append.mp ha with ha1 | ha2
        · exact hinv a ha1 x (hsub x hx)
        · rw [List.mem_singleton] at ha2
          rw [ha2]
          exact hxm x (hsub x hx)
      obtain ⟨o, hrec, hsorted_o, hperm_o⟩ := ih (pre ++ u :: post) tc ts (out ++ [m])
        (pc + 1) ⟨q, hq, hqne⟩ (by omega) hsort' hsout' hinv' hts
      refine ⟨o, ?_, hsorted_o, ?_⟩
      · rw [mergeLoop_step comp (-1) 0 fuel parts tc ts out pc k m _ hlen hmin hAdv, hrec]
        congr 1
        omega
      · have h1 : List.Perm ((out ++ [m]) ++ (pre ++ u :: post).flatten)
            (out ++ parts.flatten) := by
          rw [List.append_assoc, List.singleton_append]
          exact hperm_step.symm.append_left out
        exact hperm_o.trans h1

/-! ### `merge_sort`-level consequences -/

/-- When the boundary counts cover the staging vector exactly, the carved
ranges concatenate back to the staged rows. -/
lemma flatten_buildRanges_eq (counts : List Nat) (tuples : List α)
    (hsum : counts.sum = tuples.length) :
    (buildRanges tuples counts).flatten = tuples := by
  rw [flatten_buildRanges, hsum, List.take_length]

/-- A positive first boundary entry yields a non-exhausted first range. -/
lemma buildRanges_first_ne_nil (tuples : List α) (c : Nat) (cs : List Nat)
    (hc : 0 < c) (hsum : (c :: cs).sum = tuples.length) :
    ∃ r ∈ buildRanges tuples (c :: cs), r ≠ [] := by
  refine ⟨tuples.take c, by simp [buildRanges], ?_⟩
  apply List.ne_nil_of_length_pos
  rw [List.length_take]
  simp [List.sum_cons] at hsum
  omega

/-- Under the boundary-list invariants, `merge_sort` always returns normally,
for every limit and offset. -/
lemma merge_sort_ok_of_pos [Inhabited α] (comp : α → α → Bool) (tuples : List α)
    (counts : List Nat) (limit offset : Int)
    (hpos : ∀ c ∈ counts, 0 < c) (hsum : counts.sum = tuples.length) :
    ∃ o c, merge_sort comp tuples counts limit offset = MergeRes.ok o c := by
  cases counts with
  | nil => exact ⟨[], 0, by simp [merge_sort]⟩
  | cons c cs =>
    obtain ⟨r, hr, hrne⟩ := buildRanges_first_ne_nil tuples c cs (hpos c (by simp)) hsum
    have hflat := flatten_buildRanges_eq (c :: cs) tuples hsum
    obtain ⟨o, cd, hok⟩ := mergeLoop_ok comp limit offset (tuples.length + 1)
      (buildRanges tuples (c :: cs)) 0 0 [] 0 ⟨r, hr, hrne⟩ (by rw [hflat]; omega)
    refine ⟨o, cd, ?_⟩
    simp only [merge_sort]
    rw [if_neg (by simp)]
    exact hok

/-- One unfolding of the specification-side selection loop. -/
lemma kwaySelectSpec_succ (comp : α → α → Bool) (fuel : Nat) (parts : List (List α)) :
    kwaySelectSpec comp (fuel + 1) parts =
      (let ps := parts.filter (fun r => !r.isEmpty)
       if ps.isEmpty then []
       else
         match min_tuple_range comp ps with
         | none => []
         | some k =>
           match advanceAt ps k with
           | none => []
           | some (t, ps') => t :: kwaySelectSpec comp fuel ps') := rfl

/-- The general selection path applied to a single partition reproduces that
partition's rows in order. -/
lemma kwaySelectSpec_single (comp : α → α → Bool) :
    ∀ (r : List α), kwaySelectSpec comp (r.length + 1) [r] = r := by
  intro r
  induction r with
  | nil => rfl
  | cons t rest ih =>
    show kwaySelectSpec comp (rest.length + 1 + 1) [t :: rest] = t :: rest
    rw [kwaySelectSpec_succ]
    simp [min_tuple_range, minRangeAux, advanceAt, ih]

/-! ### The loading loop of `p_execute` -/

/-- Every boundary-list entry records a non-empty batch. -/
lemma loadPartitionCounts_pos :
    ∀ (bs : List Nat) (prev : Nat), ∀ c ∈ loadPartitionCounts bs prev, 0 < c := by
  intro bs
  induction bs with
  | nil => intro prev c hc; simp [loadPartitionCounts] at hc
  | cons b bs ih =>
    intro prev c hc
    by_cases hb : prev + b ≠ prev
    · rw [loadPartitionCounts, if_pos hb] at hc
      rcases List.mem_cons.mp hc with h1 | h2
      · omega
      · exact ih (prev + b) c h2
    · rw [loadPartitionCounts, if_neg hb] at hc
      exact ih (prev + b) c hc

/-- The boundary-list entries sum to the total number of staged rows. -/
lemma loadPartitionCounts_sum :
    ∀ (bs : List Nat) (prev : Nat), (loadPartitionCounts bs prev).sum = bs.sum := by
  intro bs
  induction bs with
  | nil => intro prev; rfl
  | cons b bs ih =>
    intro prev
    by_cases hb : prev + b ≠ prev
    · rw [loadPartitionCounts, if_pos hb]
      simp [ih (prev + b)]
    · rw [loadPartitionCounts, if_neg hb]
      have hb0 : b = 0 := by omega
      subst hb0
      simpa using ih prev

/-! ### The integer comparator is a strict weak ordering -/

lemma intLt_irr : ∀ a : Int, intLt a a = false := by
  intro a
  simp [intLt]

lemma intLt_trans : ∀ a b c : Int, intLt a b = true → intLt b c = true →
    intLt a c = true := by
  intro a b c h1 h2
  simp only [intLt, decide_eq_true_eq] at h1 h2 ⊢
  omega

lemma intLt_compat : ∀ a b c : Int, intLt a b = true → intLt c b = false →
    intLt a c = true := by
  intro a b c h1 h2
  simp only [intLt, decide_eq_true_eq, decide_eq_false_iff_not] at h1 h2 ⊢
  omega

/-! ### Claim theorems -/

/-- Claim C1: the claim states that for every non-negative offset and bounded
limit the appended rows equal `drop(o)` then `take(l)` of the correctly merged
sequence, and that partitions [1,3,5], [2,4], [6] with offset 2 and limit 3
append exactly [3,4,5].  The code does not do this: offset and limit are
consulted only in the single-remaining-partition drain, so on that very input
it appends [1,2,3,4,5] (and makes 5 progress countdowns), not [3,4,5]. -/
theorem merge_sort_ignores_offset_limit_in_multiway :
    merge_sort intLt [1, 3, 5, 2, 4, 6] [3, 2, 1] (-1) 0
      = MergeRes.ok [1, 2, 3, 4, 5, 6] 6 ∧
    merge_sort intLt [1, 3, 5, 2, 4, 6] [3, 2, 1] 3 2 = MergeRes.ok [1, 2, 3, 4, 5] 5 ∧
    (([1, 2, 3, 4, 5, 6] : List Int).drop 2).take 3 = [3, 4, 5] ∧
    ([1, 2, 3, 4, 5] : List Int) ≠ [3, 4, 5] :=
  ⟨by decide, by decide, by decide, by decide⟩

/-- Claim C2: the claim states that the number of rows inserted never exceeds
a bounded limit `l`, including on the single-partition fast path.  The code
never increments the `tupleCnt` counter that the drain's limit test reads, so
with a single partition [10,20] and limit 1 it inserts both rows. -/
theorem merge_sort_exceeds_limit :
    merge_sort intLt [10, 20] [2] 1 0 = MergeRes.ok [10, 20] 2 ∧
    ¬(([10, 20] : List Int).length ≤ 1) :=
  ⟨by decide, by decide⟩

/-- Claim C3: for every collection of partitions, each individually sorted
under a strict-weak-order comparator, `merge_sort` with unbounded limit (-1)
and offset 0 inserts a sequence that is sorted under the same comparator and is
a permutation of the concatenation of the inputs; in particular partitions
[1,3,5], [2,4], [6] yield output [1,2,3,4,5,6]. -/
theorem merge_sort_sorted_perm_of_sorted [Inhabited α] (comp : α → α → Bool)
    (hirr : ∀ a, comp a a = false)
    (htr : ∀ a b c, comp a b = true → comp b c = true → comp a c = true)
    (hcompat : ∀ a b c, comp a b = true → comp c b = false → comp a c = true)
    (tuples : List α) (counts : List Nat)
    (hpos : ∀ c ∈ counts, 0 < c) (hsum : counts.sum = tuples.length)
    (hsorted : ∀ r ∈ buildRanges tuples counts, SortedB comp r) :
    (∃ out pc, merge_sort comp tuples counts (-1) 0 = MergeRes.ok out pc ∧
      SortedB comp out ∧ List.Perm out tuples ∧ pc = tuples.length) ∧
    merge_sort intLt [1, 3, 5, 2, 4, 6] [3, 2, 1] (-1) 0
      = MergeRes.ok [1, 2, 3, 4, 5, 6] 6 := by
  constructor
  · cases counts with
    | nil =>
      have h0 : tuples.length = 0 := by simpa using hsum.symm
      have ht := List.eq_nil_of_length_eq_zero h0
      subst ht
      exact ⟨[], 0, by simp [merge_sort], by rw [SortedB]; exact List.Pairwise.nil,
        List.Perm.refl [], rfl⟩
    | cons c cs =>
      obtain ⟨r, hr, hrne⟩ := buildRanges_first_ne_nil tuples c cs (hpos c (by simp)) hsum
      have hflat := flatten_buildRanges_eq (c :: cs) tuples hsum
      obtain ⟨o, hok, hsrt, hperm⟩ := mergeLoop_sorted_perm comp hirr htr hcompat
        (tuples.length + 1) (buildRanges tuples (c :: cs)) 0 0 [] 0
        ⟨r, hr, hrne⟩ (by rw [hflat]; omega) hsorted
        (by rw [SortedB]; exact List.Pairwise.nil)
        (by intro a ha; simp at ha) (le_refl 0)
      refine ⟨o, tuples.length, ?_, hsrt, ?_, rfl⟩
      · simp only [merge_sort]
        rw [if_neg (by simp)]
        rw [hok, hflat]
        simp
      · have h2 := hperm
        rw [List.nil_append, hflat] at h2
        exact h2
  · decide

/-- Witness for claim C3 at the concrete three-partition input. -/
theorem merge_sort_sorted_perm_of_sorted_witness :
    (∃ out pc, merge_sort intLt [1, 3, 5, 2, 4, 6] [3, 2, 1] (-1) 0 = MergeRes.ok out pc ∧
      SortedB intLt out ∧ List.Perm out [1, 3, 5, 2, 4, 6] ∧
      pc = ([1, 3, 5, 2, 4, 6] : List Int).length) ∧
    merge_sort intLt [1, 3, 5, 2, 4, 6] [3, 2, 1] (-1) 0
      = MergeRes.ok [1, 2, 3, 4, 5, 6] 6 :=
  merge_sort_sorted_perm_of_sorted intLt intLt_irr intLt_trans intLt_compat
    [1, 3, 5, 2, 4, 6] [3, 2, 1] (by decide) (by decide) (by decide)

/-- Claim C4: when the head rows of two different partitions are tied (neither
sorts strictly before the other), `min_tuple_range` never selects the
later-registered of the two, so the earlier-registered partition's row is
emitted first; e.g. partitions [(1,0)] and [(1,1)] under a first-field key
produce [(1,0), (1,1)]. -/
theorem tie_break_earlier_partition (comp : α → α → Bool)
    (hirr : ∀ a, comp a a = false)
    (htr : ∀ a b c, comp a b = true → comp b c = true → comp a c = true)
    (hcompat : ∀ a b c, comp a b = true → comp c b = false → comp a c = true)
    (ps : List (List α)) (i j : Nat) (a b : α) (ta tb : List α)
    (hne : ∀ r ∈ ps, r ≠ []) (hij : i < j)
    (hi : ps.get? i = some (a :: ta)) (hj : ps.get? j = some (b :: tb))
    (t1 : comp a b = false) (t2 : comp b a = false) :
    min_tuple_range comp ps ≠ some j ∧
    merge_sort pairFstLt [(1, 0), (1, 1)] [1, 1] (-1) 0
      = MergeRes.ok [(1, 0), (1, 1)] 2 := by
  refine ⟨?_, by decide⟩
  intro hmin_j
  have hps : ps ≠ [] := by
    intro h
    rw [h] at hi
    simp at hi
  obtain ⟨k, m, u, hmin, hget, hB, hC⟩ :=
    min_tuple_range_spec comp hirr htr hcompat ps hps hne
  rw [hmin] at hmin_j
  injection hmin_j with hkj
  subst hkj
  rw [hj] at hget
  injection hget with hcons
  have hbm : b = m := (List.cons.inj hcons).1
  have hcma : comp m a = true := hC i a ta hij hi
  rw [← hbm] at hcma
  rw [hcma] at t2
  exact Bool.noConfusion t2

/-- Witness for claim C4: two singleton partitions with tied keys. -/
theorem tie_break_earlier_partition_witness :
    min_tuple_range intLt [[1], [1]] ≠ some 1 ∧
    merge_sort pairFstLt [(1, 0), (1, 1)] [1, 1] (-1) 0
      = MergeRes.ok [(1, 0), (1, 1)] 2 :=
  tie_break_earlier_partition intLt intLt_irr intLt_trans intLt_compat
    [[1], [1]] 0 1 1 1 [] [] (by decide) (by decide) (by decide) (by decide)
    (by decide) (by decide)

/-- Claim C5 counterexample: the claim states that the progress monitor is
counted down once for every consumed row, including rows skipped for the
offset.  With one partition holding one row and offset 1, the code consumes
the row, skips it, and makes 0 countdowns, not 1: the `continue` in the drain
skips `countdownProgress` along with the insertion. -/
theorem progress_skip_counterexample :
    merge_sort intLt [7] [1] (-1) 1 = MergeRes.ok [] 0 ∧ (0 : Nat) ≠ 1 :=
  ⟨by decide, by decide⟩

/-- Claim C5 (amended): `countdownProgress` is invoked exactly once per row
inserted into the output table; rows skipped because of the offset do not
invoke it.  So whenever `merge_sort` returns, the countdown count equals the
output length. -/
theorem progress_counts_inserted_rows [Inhabited α] (comp : α → α → Bool)
    (tuples : List α) (counts : List Nat) (limit offset : Int)
    (out : List α) (pc : Nat)
    (h : merge_sort comp tuples counts limit offset = MergeRes.ok out pc) :
    pc = out.length := by
  by_cases hc : counts.isEmpty
  · simp only [merge_sort] at h
    rw [if_pos hc] at h
    injection h with h1 h2
    rw [← h1, ← h2]
    rfl
  · simp only [merge_sort] at h
    rw [if_neg hc] at h
    exact mergeLoop_count comp limit offset (tuples.length + 1) _ 0 0 [] 0 out pc rfl h

/-- Witness for the amended claim C5. -/
theorem progress_counts_inserted_rows_witness : (0 : Nat) = ([] : List Int).length :=
  progress_counts_inserted_rows intLt [7] [1] (-1) 1 [] 0 (by decide)

/-- Claim C6: with a one-entry boundary list (one non-empty partition),
unbounded limit and zero offset, `merge_sort` outputs exactly that partition's
rows in staging order, and the specification's general k-way selection path
produces the same sequence on the same input. -/
theorem single_partition_fast_path_identity [Inhabited α] (comp : α → α → Bool)
    (r : List α) (hr : r ≠ []) :
    merge_sort comp r [r.length] (-1) 0 = MergeRes.ok r r.length ∧
    kwaySelectSpec comp (r.length + 1) [r] = r := by
  obtain ⟨x, xs, rfl⟩ := List.exists_cons_of_ne_nil hr
  constructor
  · have hbuild : buildRanges (x :: xs) [(x :: xs).length] = [x :: xs] := by
      simp [buildRanges]
    simp only [merge_sort]
    rw [if_neg (by simp)]
    rw [hbuild]
    have hfilter : List.filter (fun r => !r.isEmpty) [x :: xs] = [x :: xs] := by simp
    rw [mergeLoop_drain comp (-1) 0 (x :: xs).length [x :: xs] 0 0 [] 0
      (by rw [hfilter]; rfl)]
    rw [hfilter]
    simp [drain_all (-1) 0 0 (Or.inl rfl) (x :: xs) 0 (le_refl 0)]
  · exact kwaySelectSpec_single comp (x :: xs)

/-- Witness for claim C6 at a concrete three-row partition. -/
theorem single_partition_fast_path_identity_witness :
    merge_sort intLt [1, 2, 3] [3] (-1) 0 = MergeRes.ok [1, 2, 3] 3 ∧
    kwaySelectSpec intLt 4 [[1, 2, 3]] = [1, 2, 3] :=
  single_partition_fast_path_identity intLt [1, 2, 3] (by decide)

/-- Claim C7: after the loading loop, every boundary-list entry is strictly
positive (a batch that adds no rows creates no entry) and the entries sum to
the total number of staged rows. -/
theorem boundary_list_positive_sum (batches : List Nat) :
    (∀ c ∈ loadPartitionCounts batches 0, 0 < c) ∧
    (loadPartitionCounts batches 0).sum = batches.sum :=
  ⟨loadPartitionCounts_pos batches 0, loadPartitionCounts_sum batches 0⟩

/-- Claim C8: when every boundary-list entry is strictly positive and the
entries cover the staging vector, no call to `min_tuple_range` ever sees an
empty partition list or an exhausted range: neither of its assertions can
fail, for any limit and offset. -/
theorem merge_sort_no_assert_failure [Inhabited α] (comp : α → α → Bool)
    (tuples : List α) (counts : List Nat) (limit offset : Int)
    (hpos : ∀ c ∈ counts, 0 < c) (hsum : counts.sum = tuples.length) :
    merge_sort comp tuples counts limit offset ≠ MergeRes.assertFail := by
  obtain ⟨o, cd, h⟩ := merge_sort_ok_of_pos comp tuples counts limit offset hpos hsum
  rw [h]
  exact fun hcon => MergeRes.noConfusion hcon

/-- Witness for claim C8. -/
theorem merge_sort_no_assert_failure_witness :
    merge_sort intLt [5, 7] [2] 1 1 ≠ MergeRes.assertFail :=
  merge_sort_no_assert_failure intLt [5, 7] [2] 1 1 (by decide) (by decide)

/-- Claim C9: under the boundary-list invariants, the `while (true)` loop of
`merge_sort` always returns after finitely many iterations — the embedding
returns normally within `tuples.length + 1` loop unfoldings, for any limit and
offset. -/
theorem merge_sort_terminates [Inhabited α] (comp : α → α → Bool)
    (tuples : List α) (counts : List Nat) (limit offset : Int)
    (hpos : ∀ c ∈ counts, 0 < c) (hsum : counts.sum = tuples.length) :
    ∃ out pc, merge_sort comp tuples counts limit offset = MergeRes.ok out pc :=
  merge_sort_ok_of_pos comp tuples counts limit offset hpos hsum

/-- Witness for claim C9. -/
theorem merge_sort_terminates_witness :
    ∃ out pc, merge_sort intLt [2, 9, 4] [2, 1] (-1) 0 = MergeRes.ok out pc :=
  merge_sort_terminates intLt [2, 9, 4] [2, 1] (-1) 0 (by decide) (by decide)

/-- Claim C10: because the emitted-row counter read by the fast-path limit
test is never incremented, `merge_sort` with any bounded limit `l ≥ 1`
returns exactly the same result as with the unbounded limit `-1`; and with
limit `0` the drain (the only limit-consulting point) inserts nothing. -/
theorem positive_limit_no_effect [Inhabited α] (comp : α → α → Bool)
    (tuples : List α) (counts : List Nat) (limit offset : Int) (hl : 1 ≤ limit) :
    merge_sort comp tuples counts limit offset
      = merge_sort comp tuples counts (-1) offset ∧
    (∀ (l : List α) (sk : Int), drain 0 offset 0 l sk = ([], 0)) := by
  constructor
  · simp only [merge_sort]
    by_cases hc : counts.isEmpty
    · rw [if_pos hc, if_pos hc]
    · rw [if_neg hc, if_neg hc, mergeLoop_limit_pos comp limit offset hl]
  · exact fun l sk => drain_limit_zero offset l sk

/-- Witness for claim C10 with limit 2 against limit -1. -/
theorem positive_limit_no_effect_witness :
    merge_sort intLt [1, 3, 2] [2, 1] 2 1 = merge_sort intLt [1, 3, 2] [2, 1] (-1) 1 ∧
    (∀ (l : List Int) (sk : Int), drain 0 1 0 l sk = ([], 0)) :=
  positive_limit_no_effect intLt [1, 3, 2] [2, 1] 2 1 (by norm_num)

end MergeReceive
